import Mathlib

set_option maxRecDepth 8000

/- Verification of the decoupled look-back scan state machinery of rocPRIM
   (device/detail/lookback_scan_state.hpp): the per-slot status flags, the
   two storage layouts of lookback_scan_state, and lookback_scan_prefix_op,
   the per-block operator that publishes a block's local reduction, walks
   backward through predecessor slots in warp-wide groups and publishes the
   block's completed total. -/

/-- The per-slot status flag (enum prefix_flag in the source):
PREFIX_INVALID is padding, PREFIX_EMPTY initialized without data,
PREFIX_PARTIAL a single block's own reduction, PREFIX_COMPLETE the full
inclusive prefix. -/
inductive PrefixFlag where
  | PREFIX_INVALID
  | PREFIX_EMPTY
  | PREFIX_PARTIAL
  | PREFIX_COMPLETE
  deriving DecidableEq, Repr

open PrefixFlag

/-- Pointwise array update: models a store to index i of an array modelled
as a total map. -/
def upd {A : Type} (f : Nat → A) (i : Nat) (v : A) : Nat → A :=
  fun j => if j = i then v else f j

/-- Split-layout scan state (lookback_scan_state of T with is_arithmetic =
false): a flag array and two separate value arrays, each modelled as a
total map from slot index. -/
@[ext]
structure SplitState (T : Type) where
  flags : Nat → PrefixFlag
  partVals : Nat → T
  compVals : Nat → T

/-- State effect of lookback_scan_state of T, false :: initialize_prefix:
stores PREFIX_EMPTY at slot padding + block_id when block_id is a real
block, and PREFIX_INVALID at slot block_id when block_id < padding. -/
def initPrefixSplit {T : Type} (padding : Nat) (st : SplitState T)
    (block_id n : Nat) : SplitState T :=
  let st1 := if block_id < n then
      { st with flags := upd st.flags (padding + block_id) PREFIX_EMPTY } else st
  if block_id < padding then
      { st1 with flags := upd st1.flags block_id PREFIX_INVALID } else st1

/-- State effect of the split-layout set_partial: store the value in the
partial-values array of slot padding + block_id, then the flag. -/
def setPartialSplit {T : Type} (padding : Nat) (st : SplitState T)
    (block_id : Nat) (v : T) : SplitState T :=
  { st with partVals := upd st.partVals (padding + block_id) v,
            flags := upd st.flags (padding + block_id) PREFIX_PARTIAL }

/-- State effect of the split-layout set_complete: store the value in the
complete-values array of slot padding + block_id, then the flag. -/
def setCompleteSplit {T : Type} (padding : Nat) (st : SplitState T)
    (block_id : Nat) (v : T) : SplitState T :=
  { st with compVals := upd st.compVals (padding + block_id) v,
            flags := upd st.flags (padding + block_id) PREFIX_COMPLETE }

/-- The claim C6 reading of initializeSlot, transcribed from the spec
sentence: sets slot slotId to Empty if slotId < blockCount, OTHERWISE
(else-if) to Invalid if slotId < padding, touching nothing else. -/
def initSlotSpecC6 {T : Type} (padding : Nat) (st : SplitState T)
    (slotId n : Nat) : SplitState T :=
  if slotId < n then
    { st with flags := upd st.flags (padding + slotId) PREFIX_EMPTY }
  else if slotId < padding then
    { st with flags := upd st.flags slotId PREFIX_INVALID }
  else st

/-- Combined single-word layout state (lookback_scan_state of T with
is_arithmetic = true): each slot holds flag and value together, stored and
loaded in one operation. -/
@[ext]
structure CombState (T : Type) where
  slots : Nat → PrefixFlag × T

/-- The private set() of the combined layout: one store of the whole
flag/value word of slot padding + block_id. -/
def setComb {T : Type} (padding : Nat) (st : CombState T) (block_id : Nat)
    (fl : PrefixFlag) (v : T) : CombState T :=
  { slots := upd st.slots (padding + block_id) (fl, v) }

/-- Combined-layout set_partial. -/
def setPartialComb {T : Type} (padding : Nat) (st : CombState T)
    (block_id : Nat) (v : T) : CombState T :=
  setComb padding st block_id PREFIX_PARTIAL v

/-- Combined-layout set_complete. -/
def setCompleteComb {T : Type} (padding : Nat) (st : CombState T)
    (block_id : Nat) (v : T) : CombState T :=
  setComb padding st block_id PREFIX_COMPLETE v

/-- Combined-layout initialize_prefix. The source stores a whole
flag/value word whose value half is an uninitialized register; junk models
that uninitialized value component deterministically. -/
def initPrefixComb {T : Type} (padding : Nat) (junk : T) (st : CombState T)
    (block_id n : Nat) : CombState T :=
  let st1 := if block_id < n then
      { slots := upd st.slots (padding + block_id) (PREFIX_EMPTY, junk) } else st
  if block_id < padding then
      { slots := upd st1.slots block_id (PREFIX_INVALID, junk) } else st1

/-- Modelled from the spec: rocprim::detail::align_size
(detail/various.hpp, not among the provided sources) rounds a byte size up
to the alignment used for the independently aligned sub-regions (256). -/
def align_size (s : Nat) : Nat := ((s + 255) / 256) * 256

/-- sizeof(flag_type) of the split layout: flag_type is char. -/
def sizeofFlagSplit : Nat := 1

/-- get_storage_size of the split layout: the sum of the independently
aligned sizes of the flag region and the two value regions for
padding + number_of_blocks slots; sizeT models sizeof(T). -/
def getStorageSizeSplit (padding n sizeT : Nat) : Nat :=
  align_size ((padding + n) * sizeofFlagSplit) + 2 * align_size ((padding + n) * sizeT)

/-- The three region byte offsets bound by the split-layout create():
flags at 0, partial values after the aligned flag region, complete values
after the aligned partial region. -/
def createOffsetsSplit (padding n sizeT : Nat) : Nat × Nat × Nat :=
  (0,
   align_size ((padding + n) * sizeofFlagSplit),
   align_size ((padding + n) * sizeofFlagSplit) + align_size ((padding + n) * sizeT))

/-- Compile-time facts about a C++ payload type that the storage-strategy
choice can observe. -/
structure CppTypeInfo where
  is_arithmetic : Bool
  size : Nat
  is_trivially_copyable : Bool
  deriving DecidableEq, Repr

/-- The strategy selector of the source: template of class T, bool
is_arithmetic = std::is_arithmetic of T — the combined single-word layout
is chosen exactly on arithmetic payload types. -/
def usesCombinedWord (t : CppTypeInfo) : Bool := t.is_arithmetic

/-- The claim C8 predicate, transcribed from the spec: payload small,
trivially copyable, and a flag/value pair fits a word width with a
single-instruction load/store (pair widths 2/4/8/16, i.e. payload sizes
1/2/4/8). -/
def specCombinedWord (t : CppTypeInfo) : Bool :=
  t.is_trivially_copyable &&
    (t.size == 1 || t.size == 2 || t.size == 4 || t.size == 8)

/-- The C++/HIP vector type short2: trivially copyable, 4 bytes, not an
arithmetic type in the sense of std::is_arithmetic. -/
def short2Info : CppTypeInfo :=
  { is_arithmetic := false, size := 4, is_trivially_copyable := true }

/-- The C++ type int: arithmetic, 4 bytes, trivially copyable. -/
def intInfo : CppTypeInfo :=
  { is_arithmetic := true, size := 4, is_trivially_copyable := true }

/-- C++ guarantee about the targeted platforms: an arithmetic fundamental
type is trivially copyable and has size 1, 2, 4 or 8. -/
def arithWF (t : CppTypeInfo) : Prop :=
  t.is_arithmetic = true →
    (t.is_trivially_copyable = true ∧
      (t.size = 1 ∨ t.size = 2 ∨ t.size = 4 ∨ t.size = 8))

/-- Memory events emitted by the split-layout publication and polling code
(volatile stores/loads and memory fences). Load events record the value
the load returned. -/
inductive MemEvent (T : Type) where
  | storePart : Nat → T → MemEvent T
  | storeComp : Nat → T → MemEvent T
  | storeFlag : Nat → PrefixFlag → MemEvent T
  | fence : MemEvent T
  | loadFlag : Nat → PrefixFlag → MemEvent T
  | loadPart : Nat → T → MemEvent T
  | loadComp : Nat → T → MemEvent T
  deriving DecidableEq, Repr

/-- Event trace of the split-layout set_partial: store the value, fence,
store the flag. -/
def setPartialTrace {T : Type} (padding block_id : Nat) (v : T) :
    List (MemEvent T) :=
  [MemEvent.storePart (padding + block_id) v,
   MemEvent.fence,
   MemEvent.storeFlag (padding + block_id) PREFIX_PARTIAL]

/-- Event trace of the split-layout set_complete: store the value, fence,
store the flag. -/
def setCompleteTrace {T : Type} (padding block_id : Nat) (v : T) :
    List (MemEvent T) :=
  [MemEvent.storeComp (padding + block_id) v,
   MemEvent.fence,
   MemEvent.storeFlag (padding + block_id) PREFIX_COMPLETE]

/-- Event trace of the split-layout get: polls k is the flag value the
k-th volatile flag load returns; pv and cv are the values the partial /
complete array load would return. Each loop iteration fences and then
reloads the flag; on the first non-empty flag the value array selected by
that flag is read. none models fuel polls that all returned EMPTY. -/
def getTraceAux {T : Type} (padding block_id : Nat)
    (polls : Nat → PrefixFlag) (pv cv : T) :
    Nat → Nat → Option (List (MemEvent T) × PrefixFlag × T)
  | _, 0 => none
  | k, fuel + 1 =>
    let f := polls k
    if f = PREFIX_EMPTY then
      (getTraceAux padding block_id polls pv cv (k + 1) fuel).map
        (fun res =>
          (MemEvent.fence :: MemEvent.loadFlag (padding + block_id) f :: res.1,
           res.2))
    else if f = PREFIX_PARTIAL then
      some ([MemEvent.fence, MemEvent.loadFlag (padding + block_id) f,
             MemEvent.loadPart (padding + block_id) pv], f, pv)
    else
      some ([MemEvent.fence, MemEvent.loadFlag (padding + block_id) f,
             MemEvent.loadComp (padding + block_id) cv], f, cv)

/-- Event trace of get, starting at the first poll. -/
def getTrace {T : Type} (padding block_id : Nat) (polls : Nat → PrefixFlag)
    (pv cv : T) (fuel : Nat) : Option (List (MemEvent T) × PrefixFlag × T) :=
  getTraceAux padding block_id polls pv cv 0 fuel

/-- The fence/flag-load pairs emitted by k polls that saw EMPTY. -/
def spinEvents {T : Type} (idx : Nat) : Nat → List (MemEvent T)
  | 0 => []
  | k + 1 =>
      MemEvent.fence :: MemEvent.loadFlag idx PREFIX_EMPTY :: spinEvents idx k

/-- Whether an event is a read of one of the value arrays. -/
def isValueLoad {T : Type} : MemEvent T → Bool
  | MemEvent.loadPart _ _ => true
  | MemEvent.loadComp _ _ => true
  | _ => false

/-- The claim C4 reading of get, transcribed from the spec: every value
read is immediately preceded by a fence. -/
def valueLoadsFenced {T : Type} : List (MemEvent T) → Bool
  | e1 :: e2 :: rest =>
      (!(isValueLoad e2) ||
        (match e1 with | MemEvent.fence => true | _ => false)) &&
      valueLoadsFenced (e2 :: rest)
  | _ => true

/-- One protocol action of an owning block: publish the partial or the
complete value. -/
inductive ProtoStep (T : Type) where
  | sp : Nat → T → ProtoStep T
  | sc : Nat → T → ProtoStep T
  deriving DecidableEq, Repr

/-- The block that performs a protocol action. -/
def ProtoStep.blk {T : Type} : ProtoStep T → Nat
  | ProtoStep.sp b _ => b
  | ProtoStep.sc b _ => b

/-- Execute one protocol action on the combined-layout state. -/
def execStep {T : Type} (padding : Nat) (st : CombState T) :
    ProtoStep T → CombState T
  | ProtoStep.sp b v => setPartialComb padding st b v
  | ProtoStep.sc b v => setCompleteComb padding st b v

/-- Execute an interleaved schedule of protocol actions. -/
def execSched {T : Type} (padding : Nat) (st : CombState T)
    (sched : List (ProtoStep T)) : CombState T :=
  sched.foldl (execStep padding) st

/-- Run initialize_prefix for every id in 0..k-1 (the caller-enforced
initialization contract covers every id below padding + number_of_blocks). -/
def initRange {T : Type} (padding : Nat) (junk : T) (st : CombState T)
    (n : Nat) : Nat → CombState T
  | 0 => st
  | k + 1 => initPrefixComb padding junk (initRange padding junk st n k) k n

/-- Boolean membership in a list of block ids. -/
def memNat (l : List Nat) (b : Nat) : Bool := l.any (fun x => x == b)

/-- Schedule validity checker: every action's block is a real block, each
block publishes partial at most once and complete at most once, and a
block's complete comes after its partial. sps and scs accumulate the
blocks whose partial / complete has already happened. -/
def schedOkAux {T : Type} (n : Nat) :
    List (ProtoStep T) → List Nat → List Nat → Bool
  | [], _, _ => true
  | ProtoStep.sp b _ :: rest, sps, scs =>
      decide (b < n) && !(memNat sps b) && schedOkAux n rest (b :: sps) scs
  | ProtoStep.sc b _ :: rest, sps, scs =>
      decide (b < n) && memNat sps b && !(memNat scs b) &&
        schedOkAux n rest sps (b :: scs)

/-- Validity of a whole schedule. -/
def schedOk {T : Type} (n : Nat) (sched : List (ProtoStep T)) : Bool :=
  schedOkAux n sched [] []

/-- Whether the schedule contains a set_partial of block b. -/
def hasSP {T : Type} (sched : List (ProtoStep T)) (b : Nat) : Bool :=
  sched.any (fun s => match s with | ProtoStep.sp b' _ => b' == b | _ => false)

/-- Whether the schedule contains a set_complete of block b. -/
def hasSC {T : Type} (sched : List (ProtoStep T)) (b : Nat) : Bool :=
  sched.any (fun s => match s with | ProtoStep.sc b' _ => b' == b | _ => false)

/-- The flag a real slot holds, as a function of whether its owner's
set_complete / set_partial has already executed. -/
def phaseFlag (sc sp : Bool) : PrefixFlag :=
  if sc then PREFIX_COMPLETE else if sp then PREFIX_PARTIAL else PREFIX_EMPTY

/-- Rank of a flag along the Empty to Partial to Complete progression. -/
def flagRank : PrefixFlag → Nat
  | PREFIX_INVALID => 0
  | PREFIX_EMPTY => 0
  | PREFIX_PARTIAL => 1
  | PREFIX_COMPLETE => 2

/-- Modulus of the C++ unsigned int arithmetic used for block ids. -/
def UINT_MOD : Nat := 2 ^ 32

/-- Wrapping unsigned subtraction a - c on 32-bit unsigned ints (a < 2^32). -/
def usub (a c : Nat) : Nat := (a + (UINT_MOD - c % UINT_MOD)) % UINT_MOD

/-- The slot index lane i reads in round rnd of the backward walk of block
b: the source computes previous_block_id = b - 1 - lane - rnd*warp_size in
unsigned arithmetic and get() reads slot padding + previous_block_id, with
padding = warp_size = W. -/
def laneSlot (W b i rnd : Nat) : Nat :=
  (W + usub b (1 + i + rnd * W)) % UINT_MOD

/-- The flag/value pairs the W lanes observe in round rnd: obs gives the
snapshot each slot's (spinning, hence non-EMPTY) get() returns. -/
def roundLanes {T : Type} (W : Nat) (obs : Nat → PrefixFlag × T)
    (b rnd : Nat) : List (PrefixFlag × T) :=
  (List.range W).map (fun i => obs (laneSlot W b i rnd))

/-- Modelled from the spec: the collective reverse-order flag-segmented
reduction of reduce_partial_prefixes (warp_reduce_crosslane over
reverse_binary_op_wrapper of headflag_scan_op_wrapper, whose sources are
not under src/). The list is in lane order, head = lane 0 = nearest
predecessor; a PREFIX_COMPLETE flag is a segment boundary: the result held
by the nearest lane combines, in grid order (farthest first), every value
from the first PREFIX_COMPLETE value inward. -/
def segReduce {T : Type} (op : T → T → T) :
    List (PrefixFlag × T) → Option T
  | [] => none
  | p :: rest =>
    if p.1 = PREFIX_COMPLETE then some p.2
    else
      match segReduce op rest with
      | none => some p.2
      | some acc => some (op acc p.2)

/-- Whether some lane of round rnd observed PREFIX_COMPLETE (the negation
of the warp_all(flag != PREFIX_COMPLETE) loop condition). -/
def anyComplete {T : Type} (W : Nat) (obs : Nat → PrefixFlag × T)
    (b rnd : Nat) : Bool :=
  (roundLanes W obs b rnd).any (fun p => decide (p.1 = PREFIX_COMPLETE))

/-- The partial_prefix produced by reduce_partial_prefixes in round rnd. -/
def roundResult {T : Type} [Inhabited T] (op : T → T → T) (W : Nat)
    (obs : Nat → PrefixFlag × T) (b rnd : Nat) : T :=
  (segReduce op (roundLanes W obs b rnd)).getD default

/-- The while loop of get_prefix: after round rnd has produced accumulator
acc, stop when some lane of round rnd observed PREFIX_COMPLETE, else run
round rnd+1 and merge its result as the FIRST operand of the combine
(prefix = scan_op(partial_prefix, prefix) in the source). fuel bounds the
number of extra rounds; the returned pair carries the final prefix and the
index of the terminating round. -/
def lookLoop {T : Type} [Inhabited T] (op : T → T → T) (W : Nat)
    (obs : Nat → PrefixFlag × T) (b : Nat) :
    Nat → Nat → T → Option (T × Nat)
  | 0, rnd, acc => if anyComplete W obs b rnd then some (acc, rnd) else none
  | fuel + 1, rnd, acc =>
    if anyComplete W obs b rnd then some (acc, rnd)
    else
      lookLoop op W obs b fuel (rnd + 1)
        (op (roundResult op W obs b (rnd + 1)) acc)

/-- get_prefix of lookback_scan_prefix_op: run round 0, then the merge
loop. Returns the exclusive prefix and the terminating round index. -/
def getPrefixRounds {T : Type} [Inhabited T] (op : T → T → T) (W : Nat)
    (obs : Nat → PrefixFlag × T) (b fuel : Nat) : Option (T × Nat) :=
  lookLoop op W obs b fuel 0 (roundResult op W obs b 0)

/-- operator() of lookback_scan_prefix_op for block b: the designated lane
publishes set_partial(b, reduction), the warp walks backward to obtain the
exclusive prefix, and the designated lane publishes
set_complete(b, scan_op(prefix, reduction)); the prefix is returned. -/
def lookbackOp {T : Type} [Inhabited T] (op : T → T → T) (W : Nat)
    (obs : Nat → PrefixFlag × T) (b : Nat) (reduction : T)
    (st : CombState T) (fuel : Nat) : Option (T × CombState T) :=
  let st1 := setPartialComb W st b reduction
  match getPrefixRounds op W obs b fuel with
  | none => none
  | some (pfx, _) => some (pfx, setCompleteComb W st1 b (op pfx reduction))

/-- The slot indices the backward walk touches in rounds 0..rounds. -/
def walkAccesses (W b rounds : Nat) : List Nat :=
  ((List.range (rounds + 1)).map
    (fun rnd => (List.range W).map (fun i => laneSlot W b i rnd))).flatten

/-- The list of reduction values of blocks lo, lo+1, ..., lo+len-1. -/
def chunkVals {T : Type} (r : Nat → T) (lo len : Nat) : List T :=
  (List.range len).map (fun t => r (lo + t))

/-- Left-to-right combination of the reductions of blocks lo..lo+k
(k+1 values, so no emptiness side condition). -/
def foldSeg {T : Type} (op : T → T → T) (r : Nat → T) (lo k : Nat) : T :=
  (chunkVals r (lo + 1) k).foldl op (r lo)

/-- Grid-order combination of a lane-ordered value list (head = nearest):
the farthest value is applied first, so the result is
op (... op v_last v_1 ...) v_0. -/
def gridFold {T : Type} (op : T → T → T) : List T → Option T
  | [] => none
  | v :: rest =>
    match gridFold op rest with
    | none => some v
    | some a => some (op a v)

lemma initPrefixSplit_partVals {T : Type} (padding : Nat) (st : SplitState T)
    (bid n : Nat) : (initPrefixSplit padding st bid n).partVals = st.partVals := by
  by_cases h1 : bid < n <;> by_cases h2 : bid < padding <;>
    simp [initPrefixSplit, h1, h2]

lemma initPrefixSplit_compVals {T : Type} (padding : Nat) (st : SplitState T)
    (bid n : Nat) : (initPrefixSplit padding st bid n).compVals = st.compVals := by
  by_cases h1 : bid < n <;> by_cases h2 : bid < padding <;>
    simp [initPrefixSplit, h1, h2]

lemma initPrefixSplit_flags {T : Type} (padding : Nat) (st : SplitState T)
    (bid n : Nat) (s : Nat) :
    (initPrefixSplit padding st bid n).flags s =
      if bid < padding ∧ s = bid then PREFIX_INVALID
      else if bid < n ∧ s = padding + bid then PREFIX_EMPTY
      else st.flags s := by
  by_cases h1 : bid < n <;> by_cases h2 : bid < padding <;>
    simp [initPrefixSplit, h1, h2, upd] <;>
    split_ifs <;> first | rfl | omega

lemma initPrefixComb_slots {T : Type} (padding : Nat) (junk : T)
    (st : CombState T) (bid n : Nat) (s : Nat) :
    (initPrefixComb padding junk st bid n).slots s =
      if bid < padding ∧ s = bid then (PREFIX_INVALID, junk)
      else if bid < n ∧ s = padding + bid then (PREFIX_EMPTY, junk)
      else st.slots s := by
  by_cases h1 : bid < n <;> by_cases h2 : bid < padding <;>
    simp [initPrefixComb, h1, h2, upd] <;>
    split_ifs <;> first | rfl | omega

/-- C6 (corrected): a single initialize_prefix(slotId, blockCount)
invocation touches no value array; it sets the REAL slot of slotId (index
padding + slotId) to Empty when slotId < blockCount AND, independently
(not only otherwise), the padding slot slotId to Invalid when
slotId < padding; every other slot, in particular every slot for
slotId >= max(blockCount, padding), is untouched. -/
theorem C6_initialize_characterization {T : Type} (padding : Nat)
    (st : SplitState T) (bid n : Nat) :
    (initPrefixSplit padding st bid n).partVals = st.partVals ∧
    (initPrefixSplit padding st bid n).compVals = st.compVals ∧
    ∀ s, (initPrefixSplit padding st bid n).flags s =
      if bid < padding ∧ s = bid then PREFIX_INVALID
      else if bid < n ∧ s = padding + bid then PREFIX_EMPTY
      else st.flags s :=
  ⟨initPrefixSplit_partVals padding st bid n,
   initPrefixSplit_compVals padding st bid n,
   fun s => initPrefixSplit_flags padding st bid n s⟩

/-- C6 counterexample: with padding 64, blockCount 1 and slotId 0, the
code also writes Invalid into padding slot 0, while the claim's else-if
reading leaves that slot untouched (here: Empty). -/
theorem C6_initialize_counterexample :
    (initPrefixSplit 64
        (⟨fun _ => PREFIX_EMPTY, fun _ => (0 : Nat), fun _ => 0⟩) 0 1).flags 0 ≠
      (initSlotSpecC6 64
        (⟨fun _ => PREFIX_EMPTY, fun _ => (0 : Nat), fun _ => 0⟩) 0 1).flags 0 := by
  decide

/-- C9: initialize_prefix is idempotent on both layouts: a second
invocation with identical parameters leaves the state of a single
invocation unchanged. -/
theorem C9_initialize_idempotent {T : Type} (padding : Nat)
    (st : SplitState T) (junk : T) (stc : CombState T) (bid n : Nat) :
    initPrefixSplit padding (initPrefixSplit padding st bid n) bid n =
      initPrefixSplit padding st bid n ∧
    initPrefixComb padding junk (initPrefixComb padding junk stc bid n) bid n =
      initPrefixComb padding junk stc bid n := by
  constructor
  · apply SplitState.ext
    · funext s
      rw [initPrefixSplit_flags, initPrefixSplit_flags]
      split_ifs <;> rfl
    · rw [initPrefixSplit_partVals, initPrefixSplit_partVals]
    · rw [initPrefixSplit_compVals, initPrefixSplit_compVals]
  · apply CombState.ext
    funext s
    rw [initPrefixComb_slots, initPrefixComb_slots]
    split_ifs <;> rfl

/-- C10: on the split layout, set_partial(b, v) writes only the
partial-value entry and the flag entry of slot padding + b (the complete
array is untouched everywhere), set_complete(b, w) writes only the
complete-value entry and the flag entry of that slot (the partial array is
untouched everywhere); hence a block's published Partial value survives
its later Complete publication. -/
theorem C10_set_frame {T : Type} (padding : Nat) (st : SplitState T)
    (b : Nat) (v w : T) (s : Nat) (h : s ≠ padding + b) :
    (setPartialSplit padding st b v).flags s = st.flags s ∧
    (setPartialSplit padding st b v).partVals s = st.partVals s ∧
    (setPartialSplit padding st b v).compVals = st.compVals ∧
    (setCompleteSplit padding st b w).flags s = st.flags s ∧
    (setCompleteSplit padding st b w).compVals s = st.compVals s ∧
    (setCompleteSplit padding st b w).partVals = st.partVals ∧
    (setCompleteSplit padding (setPartialSplit padding st b v) b w).partVals
        (padding + b) = v := by
  refine ⟨?_, ?_, rfl, ?_, ?_, rfl, ?_⟩ <;>
    simp [setPartialSplit, setCompleteSplit, upd, h]

theorem C10_set_frame_witness :
    (1 : Nat) ≠ 2 + 0 ∧
    (setPartialSplit 2
        (⟨fun _ => PREFIX_EMPTY, fun _ => (0 : Nat), fun _ => 0⟩) 0 5).flags 1 =
      (⟨fun _ => PREFIX_EMPTY, fun _ => (0 : Nat), fun _ => 0⟩ :
        SplitState Nat).flags 1 :=
  ⟨by decide,
   (C10_set_frame 2 (⟨fun _ => PREFIX_EMPTY, fun _ => (0 : Nat), fun _ => 0⟩)
      0 5 9 1 (by decide)).1⟩

lemma le_align_size (s : Nat) : s ≤ align_size s := by
  have h1 := Nat.div_add_mod (s + 255) 256
  have h2 : (s + 255) % 256 < 256 := Nat.mod_lt _ (by omega)
  unfold align_size
  omega

/-- C7: the split-layout storage size is the sum of the independently
aligned sizes of the flag region and the two value regions for
padding + blockCount slots, and the three region offsets bound by create
fit a buffer of exactly that size in order, without overlap or overrun. -/
theorem C7_storage_partition (padding n sizeT : Nat) :
    getStorageSizeSplit padding n sizeT =
      align_size ((padding + n) * sizeofFlagSplit) +
        align_size ((padding + n) * sizeT) +
        align_size ((padding + n) * sizeT) ∧
    (createOffsetsSplit padding n sizeT).1 = 0 ∧
    (createOffsetsSplit padding n sizeT).1 + (padding + n) * sizeofFlagSplit ≤
      (createOffsetsSplit padding n sizeT).2.1 ∧
    (createOffsetsSplit padding n sizeT).2.1 + (padding + n) * sizeT ≤
      (createOffsetsSplit padding n sizeT).2.2 ∧
    (createOffsetsSplit padding n sizeT).2.2 + (padding + n) * sizeT ≤
      getStorageSizeSplit padding n sizeT := by
  have h1 := le_align_size ((padding + n) * sizeofFlagSplit)
  have h2 := le_align_size ((padding + n) * sizeT)
  refine ⟨by simp [getStorageSizeSplit]; ring, rfl, ?_, ?_, ?_⟩ <;>
    simp [createOffsetsSplit, getStorageSizeSplit] <;> omega

/-- C8 (corrected): the backing-strategy choice is a function of the
payload type alone, namely std::is_arithmetic; every arithmetic payload
satisfies the spec's conditions (small, trivially copyable, flag/value
pair in a 2/4/8/16-byte word), but the converse fails, so "exactly when"
does not hold. -/
theorem C8_strategy_choice (t : CppTypeInfo) :
    usesCombinedWord t = t.is_arithmetic ∧
    (arithWF t → usesCombinedWord t = true → specCombinedWord t = true) := by
  refine ⟨rfl, ?_⟩
  intro hwf h
  rcases hwf h with ⟨htc, hsize⟩
  rcases hsize with h4 | h4 | h4 | h4 <;> simp [specCombinedWord, htc, h4]

/-- C8 counterexample: short2 is small and trivially copyable with a
flag/value pair fitting 8 bytes, yet is not arithmetic, so the source
selects the split strategy where the claimed predicate selects the
combined one. -/
theorem C8_strategy_counterexample :
    usesCombinedWord short2Info ≠ specCombinedWord short2Info := by decide

theorem C8_strategy_choice_witness :
    arithWF intInfo ∧ specCombinedWord intInfo = true :=
  ⟨fun _ => ⟨rfl, by decide⟩,
   (C8_strategy_choice intInfo).2 (fun _ => ⟨rfl, by decide⟩) rfl⟩

lemma getTraceAux_spin {T : Type} (padding bid : Nat)
    (polls : Nat → PrefixFlag) (pv cv : T) :
    ∀ k start fuel, (∀ j, j < k → polls (start + j) = PREFIX_EMPTY) →
    polls (start + k) ≠ PREFIX_EMPTY → k < fuel →
    getTraceAux padding bid polls pv cv start fuel =
      some (spinEvents (padding + bid) k ++
        [MemEvent.fence,
         MemEvent.loadFlag (padding + bid) (polls (start + k)),
         if polls (start + k) = PREFIX_PARTIAL then
           MemEvent.loadPart (padding + bid) pv
         else MemEvent.loadComp (padding + bid) cv],
        polls (start + k),
        if polls (start + k) = PREFIX_PARTIAL then pv else cv) := by
  intro k
  induction k with
  | zero =>
    intro start fuel hspin hk hfuel
    obtain ⟨f, rfl⟩ : ∃ f, fuel = f + 1 := ⟨fuel - 1, by omega⟩
    rw [Nat.add_zero] at hk ⊢
    rw [getTraceAux]
    by_cases hp : polls start = PREFIX_PARTIAL <;> simp [spinEvents, hk, hp]
  | succ k ih =>
    intro start fuel hspin hk hfuel
    obtain ⟨f, rfl⟩ : ∃ f, fuel = f + 1 := ⟨fuel - 1, by omega⟩
    have h0 : polls start = PREFIX_EMPTY := by
      have := hspin 0 (by omega)
      rwa [Nat.add_zero] at this
    rw [getTraceAux]
    simp only [h0, if_pos rfl]
    have ih' := ih (start + 1) f
      (fun j hj => by
        have := hspin (j + 1) (by omega)
        rwa [show start + (j + 1) = start + 1 + j from by omega] at this)
      (by rwa [show start + 1 + k = start + (k + 1) from by omega])
      (by omega)
    rw [ih']
    simp [spinEvents, h0, show start + 1 + k = start + (k + 1) from by omega]

/-- C4 (corrected): on the split layout set_partial / set_complete emit
exactly value store, fence, flag store (never the reverse); get spins
(fence, reload flag, repeat) until the observed flag is non-Empty and only
then reads the value array selected by the observed flag — each flag
reload is PRECEDED by a fence, and no fence separates the final flag read
from the value read. -/
theorem C4_publish_poll_order {T : Type} (padding bid : Nat) (v w pv cv : T)
    (polls : Nat → PrefixFlag) (k fuel : Nat)
    (hspin : ∀ j, j < k → polls j = PREFIX_EMPTY)
    (hk : polls k ≠ PREFIX_EMPTY) (hfuel : k < fuel) :
    setPartialTrace padding bid v =
      [MemEvent.storePart (padding + bid) v, MemEvent.fence,
       MemEvent.storeFlag (padding + bid) PREFIX_PARTIAL] ∧
    setCompleteTrace padding bid w =
      [MemEvent.storeComp (padding + bid) w, MemEvent.fence,
       MemEvent.storeFlag (padding + bid) PREFIX_COMPLETE] ∧
    getTrace padding bid polls pv cv fuel =
      some (spinEvents (padding + bid) k ++
        [MemEvent.fence,
         MemEvent.loadFlag (padding + bid) (polls k),
         if polls k = PREFIX_PARTIAL then MemEvent.loadPart (padding + bid) pv
         else MemEvent.loadComp (padding + bid) cv],
        polls k,
        if polls k = PREFIX_PARTIAL then pv else cv) := by
  refine ⟨rfl, rfl, ?_⟩
  have h := getTraceAux_spin padding bid polls pv cv k 0 fuel
    (fun j hj => by simpa using hspin j hj) (by simpa using hk) hfuel
  simpa [getTrace] using h

/-- C4 counterexample: on the concrete trace the code produces, the value
read immediately follows the flag read with no fence in between, so the
claimed fence between the flag read and the value read does not exist. -/
theorem C4_fence_counterexample :
    getTrace 64 1 (fun _ => PREFIX_PARTIAL) (7 : Nat) 9 1 =
      some ([MemEvent.fence, MemEvent.loadFlag 65 PREFIX_PARTIAL,
             MemEvent.loadPart 65 7], PREFIX_PARTIAL, 7) ∧
    valueLoadsFenced
      [MemEvent.fence, MemEvent.loadFlag 65 PREFIX_PARTIAL,
       MemEvent.loadPart (65 : Nat) (7 : Nat)] = false := by
  constructor <;> decide

theorem C4_publish_poll_order_witness :
    (∀ j, j < 2 →
      (fun i => if i < 2 then PREFIX_EMPTY else PREFIX_COMPLETE) j = PREFIX_EMPTY) ∧
    (fun i => if i < 2 then PREFIX_EMPTY else PREFIX_COMPLETE) 2 ≠ PREFIX_EMPTY ∧
    getTrace 2 0 (fun i => if i < 2 then PREFIX_EMPTY else PREFIX_COMPLETE)
        (7 : Nat) 9 3 =
      some (spinEvents (2 + 0) 2 ++
        [MemEvent.fence,
         MemEvent.loadFlag (2 + 0)
           ((fun i => if i < 2 then PREFIX_EMPTY else PREFIX_COMPLETE) 2),
         if (fun i => if i < 2 then PREFIX_EMPTY else PREFIX_COMPLETE) 2 =
             PREFIX_PARTIAL then
           MemEvent.loadPart (2 + 0) 7
         else MemEvent.loadComp (2 + 0) 9],
        (fun i => if i < 2 then PREFIX_EMPTY else PREFIX_COMPLETE) 2,
        if (fun i => if i < 2 then PREFIX_EMPTY else PREFIX_COMPLETE) 2 =
            PREFIX_PARTIAL then (7 : Nat) else 9) :=
  ⟨by decide, by decide,
   (C4_publish_poll_order 2 0 0 0 7 9
      (fun i => if i < 2 then PREFIX_EMPTY else PREFIX_COMPLETE) 2 3
      (by decide) (by decide) (by decide)).2.2⟩

lemma memNat_nil (b : Nat) : memNat [] b = false := rfl

lemma memNat_cons (a : Nat) (l : List Nat) (b : Nat) :
    memNat (a :: l) b = ((a == b) || memNat l b) := by
  simp [memNat, List.any_cons]

lemma initRange_slots {T : Type} (padding : Nat) (junk : T)
    (st : CombState T) (n : Nat) :
    ∀ k s, (initRange padding junk st n k).slots s =
      if s < padding ∧ s < k then (PREFIX_INVALID, junk)
      else if padding ≤ s ∧ s < padding + n ∧ s < padding + k then
        (PREFIX_EMPTY, junk)
      else st.slots s := by
  intro k
  induction k with
  | zero =>
    intro s
    rw [initRange]
    split_ifs <;> first | rfl | omega
  | succ k ih =>
    intro s
    rw [initRange, initPrefixComb_slots, ih s]
    split_ifs <;> first | rfl | omega

lemma setPartialComb_slots {T : Type} (padding : Nat) (st : CombState T)
    (b : Nat) (v : T) (s : Nat) :
    (setPartialComb padding st b v).slots s =
      if s = padding + b then (PREFIX_PARTIAL, v) else st.slots s := by
  simp [setPartialComb, setComb, upd]

lemma setCompleteComb_slots {T : Type} (padding : Nat) (st : CombState T)
    (b : Nat) (v : T) (s : Nat) :
    (setCompleteComb padding st b v).slots s =
      if s = padding + b then (PREFIX_COMPLETE, v) else st.slots s := by
  simp [setCompleteComb, setComb, upd]

lemma exec_phase {T : Type} (padding n : Nat) :
    ∀ (sched : List (ProtoStep T)) (sps scs : List Nat) (st : CombState T),
    schedOkAux n sched sps scs = true →
    (∀ b, memNat scs b = true → memNat sps b = true) →
    (∀ s, s < padding → (st.slots s).1 = PREFIX_INVALID) →
    (∀ b, b < n →
      (st.slots (padding + b)).1 = phaseFlag (memNat scs b) (memNat sps b)) →
    (∀ s, s < padding →
      ((execSched padding st sched).slots s).1 = PREFIX_INVALID) ∧
    (∀ b, b < n →
      ((execSched padding st sched).slots (padding + b)).1 =
        phaseFlag (memNat scs b || hasSC sched b)
          (memNat sps b || hasSP sched b)) := by
  intro sched
  induction sched with
  | nil =>
    intro sps scs st hok hsub hpad hreal
    refine ⟨fun s hs => hpad s hs, fun b hb => ?_⟩
    simp only [execSched, List.foldl_nil, hasSC, hasSP, List.any_nil,
      Bool.or_false]
    exact hreal b hb
  | cons step rest ih =>
    intro sps scs st hok hsub hpad hreal
    cases step with
    | sp b v =>
      rw [schedOkAux] at hok
      simp only [Bool.and_eq_true, decide_eq_true_eq, Bool.not_eq_true'] at hok
      obtain ⟨⟨hbn, hnsp⟩, hrest⟩ := hok
      have hscb : memNat scs b = false := by
        by_contra hc
        have := hsub b (by revert hc; cases memNat scs b <;> simp)
        rw [hnsp] at this
        exact Bool.false_ne_true this
      have key := ih (b :: sps) scs (setPartialComb padding st b v) hrest
        (fun b' h => by rw [memNat_cons]; simp [hsub b' h])
        (fun s hs => by
          rw [setPartialComb_slots, if_neg (by omega)]
          exact hpad s hs)
        (fun b' hb' => by
          rw [setPartialComb_slots]
          by_cases hbb : b' = b
          · subst hbb
            rw [if_pos rfl, memNat_cons]
            simp [phaseFlag, hscb]
          · rw [if_neg (by omega), memNat_cons]
            have : (b == b') = false := by simp [hbb, Ne.symm hbb]
            rw [this, Bool.false_or]
            exact hreal b' hb')
      refine ⟨?_, ?_⟩
      · intro s hs
        simpa only [execSched, List.foldl_cons, execStep] using key.1 s hs
      · intro b' hb'
        have h2 := key.2 b' hb'
        simp only [execSched, List.foldl_cons, execStep] at h2 ⊢
        rw [h2, memNat_cons]
        simp only [hasSC, hasSP, List.any_cons]
        by_cases hbb : b = b'
        · simp [hbb]
        · have hf : (b == b') = false := by simp [hbb]
          simp [hf]
    | sc b v =>
      rw [schedOkAux] at hok
      simp only [Bool.and_eq_true, decide_eq_true_eq, Bool.not_eq_true'] at hok
      obtain ⟨⟨⟨hbn, hsp⟩, hnsc⟩, hrest⟩ := hok
      have key := ih sps (b :: scs) (setCompleteComb padding st b v) hrest
        (fun b' h => by
          rw [memNat_cons] at h
          rcases Bool.or_eq_true_iff.mp h with h' | h'
          · have : b = b' := by simpa using h'
            subst this; exact hsp
          · exact hsub b' h')
        (fun s hs => by
          rw [setCompleteComb_slots, if_neg (by omega)]
          exact hpad s hs)
        (fun b' hb' => by
          rw [setCompleteComb_slots]
          by_cases hbb : b' = b
          · subst hbb
            rw [if_pos rfl, memNat_cons]
            simp [phaseFlag]
          · rw [if_neg (by omega), memNat_cons]
            have : (b == b') = false := by simp [hbb, Ne.symm hbb]
            rw [this, Bool.false_or]
            exact hreal b' hb')
      refine ⟨?_, ?_⟩
      · intro s hs
        simpa only [execSched, List.foldl_cons, execStep] using key.1 s hs
      · intro b' hb'
        have h2 := key.2 b' hb'
        simp only [execSched, List.foldl_cons, execStep] at h2 ⊢
        rw [h2, memNat_cons]
        simp only [hasSC, hasSP, List.any_cons]
        by_cases hbb : b = b'
        · simp [hbb]
        · have hf : (b == b') = false := by simp [hbb]
          simp [hf]

lemma schedOkAux_append {T : Type} (n : Nat) :
    ∀ (l1 l2 : List (ProtoStep T)) (sps scs : List Nat),
    schedOkAux n (l1 ++ l2) sps scs = true → schedOkAux n l1 sps scs = true := by
  intro l1
  induction l1 with
  | nil => intro l2 sps scs _; rfl
  | cons step rest ih =>
    intro l2 sps scs hok
    cases step with
    | sp b v =>
      rw [List.cons_append, schedOkAux] at hok
      rw [schedOkAux]
      simp only [Bool.and_eq_true] at hok ⊢
      exact ⟨hok.1, ih l2 _ _ hok.2⟩
    | sc b v =>
      rw [List.cons_append, schedOkAux] at hok
      rw [schedOkAux]
      simp only [Bool.and_eq_true] at hok ⊢
      exact ⟨hok.1, ih l2 _ _ hok.2⟩

lemma hasSP_append {T : Type} (l1 l2 : List (ProtoStep T)) (b : Nat) :
    hasSP (l1 ++ l2) b = (hasSP l1 b || hasSP l2 b) := by
  simp [hasSP, List.any_append]

lemma hasSC_append {T : Type} (l1 l2 : List (ProtoStep T)) (b : Nat) :
    hasSC (l1 ++ l2) b = (hasSC l1 b || hasSC l2 b) := by
  simp [hasSC, List.any_append]

lemma flagRank_phase_mono : ∀ a1 a2 b1 b2 : Bool,
    (a1 = true → a2 = true) → (b1 = true → b2 = true) →
    flagRank (phaseFlag a1 b1) ≤ flagRank (phaseFlag a2 b2) := by decide

/-- C5: in every execution where initialization first covers every slot id
below padding + blockCount and then each block publishes one set_partial
followed by one set_complete (any interleaving across blocks), every
padding slot's flag stays Invalid throughout, every real slot's flag is
Empty until its owner's set_partial, Partial until its owner's
set_complete and Complete afterwards (so the flag sequence is exactly
Empty, Partial, Complete and never regresses), each action writes only the
slot of its own block, and flags never lose rank along the execution. -/
theorem C5_flag_monotone {T : Type} (padding n : Nat) (junk : T)
    (st0 : CombState T) (sched : List (ProtoStep T))
    (hok : schedOk n sched = true) :
    (∀ s, s < padding →
      ((execSched padding (initRange padding junk st0 n (padding + n))
        sched).slots s).1 = PREFIX_INVALID) ∧
    (∀ b, b < n →
      ((execSched padding (initRange padding junk st0 n (padding + n))
        sched).slots (padding + b)).1 =
        phaseFlag (hasSC sched b) (hasSP sched b)) ∧
    (∀ (st : CombState T) (step : ProtoStep T) (s : Nat),
      s ≠ padding + step.blk →
      (execStep padding st step).slots s = st.slots s) ∧
    (∀ pre suf, sched = pre ++ suf → ∀ b, b < n →
      flagRank (((execSched padding (initRange padding junk st0 n (padding + n))
        pre).slots (padding + b)).1) ≤
      flagRank (((execSched padding (initRange padding junk st0 n (padding + n))
        sched).slots (padding + b)).1)) := by
  have hpad0 : ∀ s, s < padding →
      ((initRange padding junk st0 n (padding + n)).slots s).1 =
        PREFIX_INVALID := by
    intro s hs
    rw [initRange_slots, if_pos (And.intro hs (by omega))]
  have hreal0 : ∀ b, b < n →
      ((initRange padding junk st0 n (padding + n)).slots (padding + b)).1 =
        phaseFlag (memNat [] b) (memNat [] b) := by
    intro b hb
    rw [initRange_slots, if_neg (by omega),
      if_pos (And.intro (by omega) (And.intro (by omega) (by omega)))]
    rfl
  have hsub0 : ∀ b, memNat ([] : List Nat) b = true →
      memNat ([] : List Nat) b = true := fun _ h => h
  have main := exec_phase padding n sched [] []
    (initRange padding junk st0 n (padding + n)) hok hsub0 hpad0 hreal0
  refine ⟨main.1, ?_, ?_, ?_⟩
  · intro b hb
    have h := main.2 b hb
    simpa [memNat_nil] using h
  · intro st step s h
    cases step with
    | sp b v =>
      show (setPartialComb padding st b v).slots s = st.slots s
      simp only [ProtoStep.blk] at h
      rw [setPartialComb_slots, if_neg h]
    | sc b v =>
      show (setCompleteComb padding st b v).slots s = st.slots s
      simp only [ProtoStep.blk] at h
      rw [setCompleteComb_slots, if_neg h]
  · intro pre suf hps b hb
    have hokpre : schedOk n pre = true := by
      have := schedOkAux_append n pre suf [] []
      rw [← hps] at this
      exact this hok
    have mainPre := exec_phase padding n pre [] []
      (initRange padding junk st0 n (padding + n)) hokpre hsub0 hpad0 hreal0
    have h1 := mainPre.2 b hb
    have h2 := main.2 b hb
    rw [h1, h2]
    subst hps
    rw [hasSC_append, hasSP_append]
    apply flagRank_phase_mono <;> simp [memNat_nil] <;> intro h <;> simp [h]

theorem C5_flag_monotone_witness :
    schedOk 2 [ProtoStep.sp 0 (3 : Nat), ProtoStep.sp 1 4,
      ProtoStep.sc 0 3, ProtoStep.sc 1 7] = true ∧
    ((execSched 2
        (initRange 2 (0 : Nat) (⟨fun _ => (PREFIX_COMPLETE, 99)⟩) 2 4)
        [ProtoStep.sp 0 (3 : Nat), ProtoStep.sp 1 4,
         ProtoStep.sc 0 3, ProtoStep.sc 1 7]).slots (2 + 1)).1 =
      PREFIX_COMPLETE :=
  ⟨by decide,
   by
    have h := (C5_flag_monotone 2 2 (0 : Nat) (⟨fun _ => (PREFIX_COMPLETE, 99)⟩)
      [ProtoStep.sp 0 (3 : Nat), ProtoStep.sp 1 4,
       ProtoStep.sc 0 3, ProtoStep.sc 1 7] (by decide)).2.1 1 (by decide)
    exact h.trans (by decide)⟩

/-- Total version of gridFold over a list extended by a final base value. -/
def gridFold1 {T : Type} (op : T → T → T) (base : T) : List T → T
  | [] => base
  | v :: rest => op (gridFold1 op base rest) v

lemma chunkVals_succ {T : Type} (r : Nat → T) (lo k : Nat) :
    chunkVals r lo (k + 1) = chunkVals r lo k ++ [r (lo + k)] := by
  simp [chunkVals, List.range_succ]

lemma chunkVals_cons {T : Type} (r : Nat → T) (lo k : Nat) :
    chunkVals r lo (k + 1) = r lo :: chunkVals r (lo + 1) k := by
  unfold chunkVals
  rw [List.range_succ_eq_map, List.map_cons, List.map_map]
  congr 1
  apply List.map_congr_left
  intro t _
  simp only [Function.comp_apply]
  congr 1
  omega

lemma chunkVals_add {T : Type} (r : Nat → T) (lo m : Nat) :
    ∀ k, chunkVals r lo (m + k) = chunkVals r lo m ++ chunkVals r (lo + m) k := by
  intro k
  induction k with
  | zero => simp [chunkVals]
  | succ k ih =>
    have e : lo + (m + k) = lo + m + k := by omega
    rw [show m + (k + 1) = (m + k) + 1 from rfl, chunkVals_succ, ih,
      chunkVals_succ, List.append_assoc, e]

lemma foldl_op_assoc {T : Type} (op : T → T → T)
    (hassoc : ∀ x y z, op (op x y) z = op x (op y z)) :
    ∀ (l : List T) (a v : T), l.foldl op (op a v) = op a (l.foldl op v) := by
  intro l
  induction l with
  | nil => intro a v; simp
  | cons x xs ih => intro a v; rw [List.foldl_cons, List.foldl_cons, hassoc, ih]

lemma foldSeg_zero {T : Type} (op : T → T → T) (r : Nat → T) (lo : Nat) :
    foldSeg op r lo 0 = r lo := by
  simp [foldSeg, chunkVals]

lemma foldSeg_succ {T : Type} (op : T → T → T) (r : Nat → T) (lo k : Nat) :
    foldSeg op r lo (k + 1) = op (foldSeg op r lo k) (r (lo + 1 + k)) := by
  rw [foldSeg, chunkVals_succ, List.foldl_append]
  rfl

lemma foldSeg_glue {T : Type} (op : T → T → T) (r : Nat → T)
    (hassoc : ∀ x y z, op (op x y) z = op x (op y z)) (lo k1 k2 : Nat) :
    op (foldSeg op r lo k1) (foldSeg op r (lo + k1 + 1) k2) =
      foldSeg op r lo (k1 + k2 + 1) := by
  have h1 : k1 + k2 + 1 = k1 + (k2 + 1) := by omega
  symm
  rw [h1]
  show foldSeg op r lo (k1 + (k2 + 1)) = _
  rw [foldSeg, chunkVals_add r (lo + 1) k1 (k2 + 1), List.foldl_append]
  rw [show lo + 1 + k1 = lo + k1 + 1 from by omega]
  rw [chunkVals_cons, List.foldl_cons]
  rw [foldl_op_assoc op hassoc]
  rfl

lemma gridFold_append_single {T : Type} (op : T → T → T) :
    ∀ (l : List T) (v : T), gridFold op (l ++ [v]) = some (gridFold1 op v l) := by
  intro l
  induction l with
  | nil => intro v; rfl
  | cons x xs ih =>
    intro v
    rw [List.cons_append, gridFold, ih v]
    rfl

lemma gridFold1_desc {T : Type} (op : T → T → T) (r : Nat → T) :
    ∀ (k lo : Nat) (base : T),
    gridFold1 op base ((List.range k).map (fun i => r (lo + k - i))) =
      (chunkVals r (lo + 1) k).foldl op base := by
  intro k
  induction k with
  | zero => intro lo base; simp [chunkVals, gridFold1]
  | succ k ih =>
    intro lo base
    rw [List.range_succ_eq_map, List.map_cons, List.map_map]
    have hfun : ((fun i => r (lo + (k + 1) - i)) ∘ Nat.succ) =
        (fun i => r (lo + k - i)) := by
      funext i
      simp only [Function.comp_apply]
      congr 1
      omega
    rw [hfun, gridFold1, ih lo base]
    rw [chunkVals_succ, List.foldl_append]
    simp only [List.foldl_cons, List.foldl_nil]
    congr 2
    omega

lemma segReduce_noC {T : Type} (op : T → T → T) :
    ∀ (L : List (PrefixFlag × T)), (∀ p ∈ L, p.1 ≠ PREFIX_COMPLETE) →
    segReduce op L = gridFold op (L.map Prod.snd) := by
  intro L
  induction L with
  | nil => intro _; rfl
  | cons p ps ih =>
    intro h
    rw [segReduce, if_neg (h p (by simp))]
    rw [ih (fun q hq => h q (by simp [hq]))]
    rfl

lemma segReduce_firstC {T : Type} (op : T → T → T) :
    ∀ (P : List (PrefixFlag × T)) (v : T) (rest : List (PrefixFlag × T)),
    (∀ p ∈ P, p.1 ≠ PREFIX_COMPLETE) →
    segReduce op (P ++ (PREFIX_COMPLETE, v) :: rest) =
      gridFold op (P.map Prod.snd ++ [v]) := by
  intro P
  induction P with
  | nil =>
    intro v rest _
    rw [List.nil_append, segReduce, if_pos rfl]
    rfl
  | cons p ps ih =>
    intro v rest h
    rw [List.cons_append, segReduce, if_neg (h p (by simp))]
    rw [ih v rest (fun q hq => h q (by simp [hq]))]
    rw [List.map_cons, List.cons_append, gridFold]

lemma laneSlot_eq (W b i rnd : Nat) (hx : 1 + i + rnd * W ≤ b + W)
    (hbW : b + W < UINT_MOD) :
    laneSlot W b i rnd = b + W - (1 + i + rnd * W) := by
  have hxU : 1 + i + rnd * W < UINT_MOD := by omega
  have hxmod : (1 + i + rnd * W) % UINT_MOD = 1 + i + rnd * W :=
    Nat.mod_eq_of_lt hxU
  unfold laneSlot usub
  rw [hxmod]
  rcases le_or_lt (1 + i + rnd * W) b with h | h
  · have e1 : b + (UINT_MOD - (1 + i + rnd * W)) =
        (b - (1 + i + rnd * W)) + UINT_MOD := by omega
    rw [e1, Nat.add_mod_right,
      Nat.mod_eq_of_lt (show b - (1 + i + rnd * W) < UINT_MOD by omega),
      Nat.mod_eq_of_lt (show W + (b - (1 + i + rnd * W)) < UINT_MOD by omega)]
    omega
  · rw [Nat.mod_eq_of_lt (show b + (UINT_MOD - (1 + i + rnd * W)) < UINT_MOD
        by omega)]
    have e2 : W + (b + (UINT_MOD - (1 + i + rnd * W))) =
        (b + W - (1 + i + rnd * W)) + UINT_MOD := by omega
    rw [e2, Nat.add_mod_right, Nat.mod_eq_of_lt (by omega)]

lemma round_all_partial {T : Type} [Inhabited T] (op : T → T → T)
    (r : Nat → T) (obs : Nat → PrefixFlag × T) (W b rnd : Nat)
    (hW : 0 < W) (hbW : b + W < UINT_MOD) (hrnd : (rnd + 1) * W ≤ b)
    (hobs : ∀ id, b - (rnd + 1) * W ≤ id → id < b - rnd * W →
      obs (W + id) = (PREFIX_PARTIAL, r id)) :
    segReduce op (roundLanes W obs b rnd) =
      some (foldSeg op r (b - (rnd + 1) * W) (W - 1)) ∧
    anyComplete W obs b rnd = false := by
  have hmul : (rnd + 1) * W = rnd * W + W := by ring
  have hlane : ∀ i, i < W →
      obs (laneSlot W b i rnd) = (PREFIX_PARTIAL, r (b - 1 - i - rnd * W)) := by
    intro i hi
    rw [laneSlot_eq W b i rnd (by omega) hbW,
      show b + W - (1 + i + rnd * W) = W + (b - 1 - i - rnd * W) from by omega]
    exact hobs _ (by omega) (by omega)
  have hlanes : roundLanes W obs b rnd =
      (List.range W).map (fun i => (PREFIX_PARTIAL, r (b - 1 - i - rnd * W))) := by
    unfold roundLanes
    apply List.map_congr_left
    intro i hi
    exact hlane i (List.mem_range.mp hi)
  constructor
  · rw [hlanes]
    rw [segReduce_noC op _ (by
      intro p hp
      rcases List.mem_map.mp hp with ⟨i, _, rfl⟩
      simp)]
    rw [List.map_map]
    obtain ⟨W', rfl⟩ : ∃ W', W = W' + 1 := ⟨W - 1, by omega⟩
    rw [List.range_succ, List.map_append, List.map_singleton]
    have hfun : ∀ i ∈ List.range W',
        (Prod.snd ∘ fun i => (PREFIX_PARTIAL, r (b - 1 - i - rnd * (W' + 1)))) i =
          (fun i => r (b - (rnd + 1) * (W' + 1) + W' - i)) i := by
      intro i hi
      have hi' := List.mem_range.mp hi
      simp only [Function.comp_apply]
      congr 1
      have hmul2 : (rnd + 1) * (W' + 1) = rnd * (W' + 1) + (W' + 1) := by ring
      omega
    rw [List.map_congr_left hfun]
    rw [gridFold_append_single, gridFold1_desc]
    simp only [Function.comp_apply, Option.some.injEq]
    rw [show b - 1 - W' - rnd * (W' + 1) = b - (rnd + 1) * (W' + 1) from by
      have hmul2 : (rnd + 1) * (W' + 1) = rnd * (W' + 1) + (W' + 1) := by ring
      omega]
    rw [foldSeg]
    simp
  · rw [anyComplete, hlanes]
    simp


lemma round_term {T : Type} [Inhabited T] (op : T → T → T)
    (r : Nat → T) (obs : Nat → PrefixFlag × T) (W b jc : Nat)
    (hW : 0 < W) (hbW : b + W < UINT_MOD) (hjc : jc < b)
    (hobsU : ∀ id, jc < id → id < b → obs (W + id) = (PREFIX_PARTIAL, r id))
    (hobsC : obs (W + jc) = (PREFIX_COMPLETE, foldSeg op r 0 jc)) :
    segReduce op (roundLanes W obs b ((b - 1 - jc) / W)) =
      some (foldSeg op r 0 (b - 1 - ((b - 1 - jc) / W) * W)) ∧
    anyComplete W obs b ((b - 1 - jc) / W) = true := by
  have hdm : W * ((b - 1 - jc) / W) + (b - 1 - jc) % W = b - 1 - jc :=
    Nat.div_add_mod _ W
  have hic : (b - 1 - jc) % W < W := Nat.mod_lt _ hW
  have hcomm : ((b - 1 - jc) / W) * W = W * ((b - 1 - jc) / W) := Nat.mul_comm _ _
  have hlaneP : ∀ i, i < (b - 1 - jc) % W →
      obs (laneSlot W b i ((b - 1 - jc) / W)) =
        (PREFIX_PARTIAL, r (b - 1 - i - ((b - 1 - jc) / W) * W)) := by
    intro i hi
    rw [laneSlot_eq W b i _ (by omega) hbW,
      show b + W - (1 + i + ((b - 1 - jc) / W) * W) =
        W + (b - 1 - i - ((b - 1 - jc) / W) * W) from by omega]
    exact hobsU _ (by omega) (by omega)
  have hlaneC : obs (laneSlot W b ((b - 1 - jc) % W) ((b - 1 - jc) / W)) =
      (PREFIX_COMPLETE, foldSeg op r 0 jc) := by
    rw [laneSlot_eq W b _ _ (by omega) hbW,
      show b + W - (1 + (b - 1 - jc) % W + ((b - 1 - jc) / W) * W) = W + jc
        from by omega]
    exact hobsC
  obtain ⟨m, hWm⟩ : ∃ m, W = (b - 1 - jc) % W + (1 + m) := ⟨W - (b - 1 - jc) % W - 1, by omega⟩
  have hsplit : List.range W =
      List.range ((b - 1 - jc) % W) ++
        ((b - 1 - jc) % W) ::
          (List.range m).map (fun t => (b - 1 - jc) % W + (t + 1)) := by
    conv_lhs => rw [hWm]
    rw [List.range_add]
    congr 1
    rw [show 1 + m = m + 1 from by omega, List.range_succ_eq_map, List.map_cons,
      List.map_map]
    rfl
  have hlanes : roundLanes W obs b ((b - 1 - jc) / W) =
      ((List.range ((b - 1 - jc) % W)).map
        (fun i => obs (laneSlot W b i ((b - 1 - jc) / W)))) ++
      (PREFIX_COMPLETE, foldSeg op r 0 jc) ::
      ((List.range m).map (fun t =>
        obs (laneSlot W b ((b - 1 - jc) % W + (t + 1)) ((b - 1 - jc) / W)))) := by
    unfold roundLanes
    rw [hsplit, List.map_append, List.map_cons, hlaneC, List.map_map]
    rfl
  constructor
  · rw [hlanes, segReduce_firstC op _ _ _ (by
      intro p hp
      rcases List.mem_map.mp hp with ⟨i, hi, rfl⟩
      rw [hlaneP i (List.mem_range.mp hi)]
      simp)]
    rw [List.map_map]
    have hfun : ∀ i ∈ List.range ((b - 1 - jc) % W),
        (Prod.snd ∘ fun i => obs (laneSlot W b i ((b - 1 - jc) / W))) i =
          (fun i => r (jc + (b - 1 - jc) % W - i)) i := by
      intro i hi
      have hi' := List.mem_range.mp hi
      simp only [Function.comp_apply]
      rw [hlaneP i hi']
      simp only
      congr 1
      omega
    rw [List.map_congr_left hfun]
    rw [gridFold_append_single, gridFold1_desc]
    have hfin : (chunkVals r (jc + 1) ((b - 1 - jc) % W)).foldl op
        (foldSeg op r 0 jc) = foldSeg op r 0 (jc + (b - 1 - jc) % W) := by
      symm
      rw [foldSeg, chunkVals_add r 1 jc ((b - 1 - jc) % W), List.foldl_append,
        show 1 + jc = jc + 1 from by omega]
      rfl
    rw [hfin]
    congr 2
    omega
  · rw [anyComplete, hlanes]
    rw [List.any_append]
    simp

lemma lookLoop_run {T : Type} [Inhabited T] (op : T → T → T)
    (r : Nat → T) (obs : Nat → PrefixFlag × T) (W b jc : Nat)
    (hW : 0 < W) (hbW : b + W < UINT_MOD) (hjc : jc < b)
    (hassoc : ∀ x y z, op (op x y) z = op x (op y z))
    (hobsU : ∀ id, jc < id → id < b → obs (W + id) = (PREFIX_PARTIAL, r id))
    (hobsC : obs (W + jc) = (PREFIX_COMPLETE, foldSeg op r 0 jc)) :
    ∀ d rnd fuel acc, rnd + d = (b - 1 - jc) / W → d ≤ fuel →
    acc = (if rnd < (b - 1 - jc) / W
           then foldSeg op r (b - (rnd + 1) * W) ((rnd + 1) * W - 1)
           else foldSeg op r 0 (b - 1)) →
    lookLoop op W obs b fuel rnd acc =
      some (foldSeg op r 0 (b - 1), (b - 1 - jc) / W) := by
  have hdm : W * ((b - 1 - jc) / W) + (b - 1 - jc) % W = b - 1 - jc :=
    Nat.div_add_mod _ W
  have hcm : ((b - 1 - jc) / W) * W = W * ((b - 1 - jc) / W) := Nat.mul_comm _ _
  have hterm := round_term op r obs W b jc hW hbW hjc hobsU hobsC
  intro d
  induction d with
  | zero =>
    intro rnd fuel acc hrnd hfuel hacc
    have hrnd' : rnd = (b - 1 - jc) / W := by omega
    subst hrnd'
    rw [if_neg (by omega)] at hacc
    cases fuel with
    | zero => rw [lookLoop, if_pos hterm.2, hacc]
    | succ f => rw [lookLoop, if_pos hterm.2, hacc]
  | succ d ih =>
    intro rnd fuel acc hrnd hfuel hacc
    have hlt : rnd < (b - 1 - jc) / W := by omega
    have hmulA : (rnd + 1) * W = rnd * W + W := by ring
    have hmulB : (rnd + 2) * W = (rnd + 1) * W + W := by ring
    have hmono1 : (rnd + 1) * W ≤ ((b - 1 - jc) / W) * W :=
      Nat.mul_le_mul_right W (by omega)
    have hpart := round_all_partial op r obs W b rnd hW hbW (by omega)
      (fun id h1 h2 => hobsU id (by omega) (by omega))
    obtain ⟨f, rfl⟩ : ∃ f, fuel = f + 1 := ⟨fuel - 1, by omega⟩
    rw [lookLoop, if_neg (by rw [hpart.2]; simp)]
    rw [if_pos hlt] at hacc
    rcases Nat.lt_or_ge (rnd + 1) ((b - 1 - jc) / W) with hcase | hcase
    · -- the next round is still an all-partial round
      have hsame : (rnd + 1 + 1) * W = (rnd + 2) * W := rfl
      have hmono2 : (rnd + 2) * W ≤ ((b - 1 - jc) / W) * W :=
        Nat.mul_le_mul_right W (by omega)
      have hpart2 := round_all_partial op r obs W b (rnd + 1) hW hbW (by omega)
        (fun id h1 h2 => hobsU id (by omega) (by omega))
      have hacc' : op (roundResult op W obs b (rnd + 1)) acc =
          foldSeg op r (b - (rnd + 1 + 1) * W) ((rnd + 1 + 1) * W - 1) := by
        rw [hacc, roundResult, hpart2.1, Option.getD_some]
        have hglue := foldSeg_glue op r hassoc (b - (rnd + 2) * W) (W - 1)
          ((rnd + 1) * W - 1)
        rw [show b - (rnd + 2) * W + (W - 1) + 1 = b - (rnd + 1) * W from by
            omega] at hglue
        rw [show (rnd + 1 + 1) = rnd + 2 from rfl] at *
        rw [hglue]
        congr 1
        omega
      exact ih (rnd + 1) f _ (by omega) (by omega)
        (by rw [hacc', if_pos hcase])
    · -- the next round is the terminating round
      have hrc : rnd + 1 = (b - 1 - jc) / W := by omega
      have hacc' : op (roundResult op W obs b (rnd + 1)) acc =
          foldSeg op r 0 (b - 1) := by
        rw [hacc, roundResult, hrc, hterm.1, Option.getD_some]
        have hglue := foldSeg_glue op r hassoc 0
          (b - 1 - ((b - 1 - jc) / W) * W) (((b - 1 - jc) / W) * W - 1)
        rw [show 0 + (b - 1 - ((b - 1 - jc) / W) * W) + 1 =
            b - ((b - 1 - jc) / W) * W from by omega] at hglue
        rw [hglue]
        congr 1
        omega
      exact ih (rnd + 1) f _ (by omega) (by omega)
        (by rw [hacc', if_neg (by omega)])

/-- C1: for any block count N, any associative (not necessarily
commutative) combine op and any per-block reductions r, when block b
(0 < b < N) runs the lookback prefix operator with its local reduction
r b, and the snapshot obs that its reads observe is protocol-consistent
(every predecessor j < b is seen either as (Partial, r j) or as
(Complete, r 0 op ... op r j), with at least one Complete observed, as the
protocol guarantees once initialization completed and block 0 publishes
Complete), the operator returns the exclusive prefix
r 0 op r 1 op ... op r (b-1) and publishes
setComplete(b, op(exclusivePrefix, r b)). fuel b bounds the number of
look-back rounds, which terminate earlier. -/
theorem C1_lookback_exclusive {T : Type} [Inhabited T] (op : T → T → T)
    (r : Nat → T) (obs : Nat → PrefixFlag × T) (W N b : Nat)
    (st : CombState T)
    (hW : 0 < W) (hb : 0 < b) (hbN : b < N) (hU : N + W ≤ UINT_MOD)
    (hassoc : ∀ x y z, op (op x y) z = op x (op y z))
    (Hreal : ∀ j, j < b → obs (W + j) = (PREFIX_PARTIAL, r j) ∨
      obs (W + j) = (PREFIX_COMPLETE, foldSeg op r 0 j))
    (Hcomp : ∃ j, j < b ∧ (obs (W + j)).1 = PREFIX_COMPLETE) :
    lookbackOp op W obs b (r b) st b =
      some (foldSeg op r 0 (b - 1),
        setCompleteComb W (setPartialComb W st b (r b)) b
          (op (foldSeg op r 0 (b - 1)) (r b))) ∧
    (setCompleteComb W (setPartialComb W st b (r b)) b
        (op (foldSeg op r 0 (b - 1)) (r b))).slots (W + b) =
      (PREFIX_COMPLETE, op (foldSeg op r 0 (b - 1)) (r b)) := by
  have hbW : b + W < UINT_MOD := by omega
  obtain ⟨j0, hj0b, hj0C⟩ := Hcomp
  have hj0le : j0 ≤ b - 1 := by omega
  have hexist : ∃ jc, jc < b ∧ (obs (W + jc)).1 = PREFIX_COMPLETE ∧
      ∀ id, jc < id → id < b → (obs (W + id)).1 ≠ PREFIX_COMPLETE := by
    refine ⟨Nat.findGreatest (fun j => (obs (W + j)).1 = PREFIX_COMPLETE)
      (b - 1), ?_, ?_, ?_⟩
    · have := Nat.findGreatest_le
        (P := fun j => (obs (W + j)).1 = PREFIX_COMPLETE) (b - 1)
      omega
    · exact Nat.findGreatest_spec
        (P := fun j => (obs (W + j)).1 = PREFIX_COMPLETE) hj0le hj0C
    · intro id h1 h2
      exact Nat.findGreatest_is_greatest
        (P := fun j => (obs (W + j)).1 = PREFIX_COMPLETE) h1 (by omega)
  obtain ⟨jc, hjcb, hjcC, hjcMax⟩ := hexist
  have hobsC : obs (W + jc) = (PREFIX_COMPLETE, foldSeg op r 0 jc) := by
    rcases Hreal jc hjcb with h | h
    · rw [h] at hjcC; simp at hjcC
    · exact h
  have hobsU : ∀ id, jc < id → id < b →
      obs (W + id) = (PREFIX_PARTIAL, r id) := by
    intro id h1 h2
    rcases Hreal id h2 with h | h
    · exact h
    · exfalso
      apply hjcMax id h1 h2
      rw [h]
  have hdm : W * ((b - 1 - jc) / W) + (b - 1 - jc) % W = b - 1 - jc :=
    Nat.div_add_mod _ W
  have hcm : ((b - 1 - jc) / W) * W = W * ((b - 1 - jc) / W) := Nat.mul_comm _ _
  have hacc0 : roundResult op W obs b 0 =
      (if 0 < (b - 1 - jc) / W
       then foldSeg op r (b - (0 + 1) * W) ((0 + 1) * W - 1)
       else foldSeg op r 0 (b - 1)) := by
    rcases Nat.eq_zero_or_pos ((b - 1 - jc) / W) with hz | hp
    · have hterm := round_term op r obs W b jc hW hbW hjcb hobsU hobsC
      rw [hz] at hterm
      rw [if_neg (by omega), roundResult, hterm.1, Option.getD_some]
      congr 1
      simp
    · rw [if_pos hp]
      have honeW : (0 + 1) * W = W := by ring
      have hWrc : W * 1 ≤ W * ((b - 1 - jc) / W) := Nat.mul_le_mul_left W hp
      have hW1 : W * 1 = W := by ring
      have hpart := round_all_partial op r obs W b 0 hW hbW (by omega)
        (fun id h1 h2 => hobsU id (by omega) (by omega))
      rw [roundResult, hpart.1, Option.getD_some]
      congr 1
      omega
  have hgetp : getPrefixRounds op W obs b b =
      some (foldSeg op r 0 (b - 1), (b - 1 - jc) / W) := by
    rw [getPrefixRounds]
    exact lookLoop_run op r obs W b jc hW hbW hjcb hassoc hobsU hobsC
      ((b - 1 - jc) / W) 0 b (roundResult op W obs b 0)
      (by omega)
      (by have := Nat.div_le_self (b - 1 - jc) W; omega)
      hacc0
  constructor
  · rw [lookbackOp, hgetp]
  · rw [setCompleteComb_slots, if_pos rfl]

/-- C2: in round rnd lane i observes the snapshot of predecessor id
b-1-i-rnd*W (definition roundLanes); the reverse-order flag-segmented
reduction leaves the nearest lane with the grid-order combination of every
value from the first Complete one inward (everything farther is cut off);
and when no lane observed Complete, the next round's result is merged as
the FIRST operand of the combine with the accumulated result of previous
rounds, preserving left-to-right order for non-commutative operators. -/
theorem C2_round_reduce_merge {T : Type} [Inhabited T] (op : T → T → T)
    (W b : Nat) (obs : Nat → PrefixFlag × T) :
    (∀ (P : List (PrefixFlag × T)) (v : T) (rest : List (PrefixFlag × T)),
      (∀ p ∈ P, p.1 ≠ PREFIX_COMPLETE) →
      segReduce op (P ++ (PREFIX_COMPLETE, v) :: rest) =
        gridFold op (P.map Prod.snd ++ [v])) ∧
    (∀ fuel rnd acc, anyComplete W obs b rnd = false →
      lookLoop op W obs b (fuel + 1) rnd acc =
        lookLoop op W obs b fuel (rnd + 1)
          (op (roundResult op W obs b (rnd + 1)) acc)) := by
  constructor
  · exact fun P v rest h => segReduce_firstC op P v rest h
  · intro fuel rnd acc h
    rw [lookLoop, if_neg (by simp [h])]

theorem C2_round_reduce_merge_witness :
    (∀ p ∈ [(PREFIX_PARTIAL, (5 : Nat))], p.1 ≠ PREFIX_COMPLETE) ∧
    segReduce Nat.add
        ([(PREFIX_PARTIAL, (5 : Nat))] ++ (PREFIX_COMPLETE, 3) :: []) =
      gridFold Nat.add ([(PREFIX_PARTIAL, (5 : Nat))].map Prod.snd ++ [3]) ∧
    anyComplete 1 (fun _ => (PREFIX_INVALID, (0 : Nat))) 1 0 = false ∧
    lookLoop Nat.add 1 (fun _ => (PREFIX_INVALID, (0 : Nat))) 1 (0 + 1) 0 7 =
      lookLoop Nat.add 1 (fun _ => (PREFIX_INVALID, (0 : Nat))) 1 0 (0 + 1)
        (Nat.add
          (roundResult Nat.add 1 (fun _ => (PREFIX_INVALID, (0 : Nat))) 1
            (0 + 1)) 7) :=
  ⟨by decide,
   (C2_round_reduce_merge Nat.add 1 1
      (fun _ => (PREFIX_INVALID, (0 : Nat)))).1 _ _ _ (by decide),
   by decide,
   (C2_round_reduce_merge Nat.add 1 1
      (fun _ => (PREFIX_INVALID, (0 : Nat)))).2 0 0 7 (by decide)⟩

lemma exists_greatest_complete {T : Type} (obs : Nat → PrefixFlag × T)
    (W b : Nat) (hb : 0 < b)
    (Hcomp : ∃ j, j < b ∧ (obs (W + j)).1 = PREFIX_COMPLETE) :
    ∃ jc, jc < b ∧ (obs (W + jc)).1 = PREFIX_COMPLETE ∧
      ∀ id, jc < id → id < b → (obs (W + id)).1 ≠ PREFIX_COMPLETE := by
  obtain ⟨j0, hj0b, hj0C⟩ := Hcomp
  have hj0le : j0 ≤ b - 1 := by omega
  refine ⟨Nat.findGreatest (fun j => (obs (W + j)).1 = PREFIX_COMPLETE)
    (b - 1), ?_, ?_, ?_⟩
  · have := Nat.findGreatest_le
      (P := fun j => (obs (W + j)).1 = PREFIX_COMPLETE) (b - 1)
    omega
  · exact Nat.findGreatest_spec
      (P := fun j => (obs (W + j)).1 = PREFIX_COMPLETE) hj0le hj0C
  · intro id h1 h2
    exact Nat.findGreatest_is_greatest
      (P := fun j => (obs (W + j)).1 = PREFIX_COMPLETE) h1 (by omega)

/-- C3: for a block id 0 < b < W with a protocol-consistent snapshot, the
backward walk terminates in round 0 at every fuel, every slot it touches
lies inside [0, padding + blockCount), the lanes whose predecessor id
underflows resolve to padding slots in [0, padding), and the prefix equals
the reference left-to-right scan over the real predecessors 0..b-1 only. -/
theorem C3_padding_boundary {T : Type} [Inhabited T] (op : T → T → T)
    (r : Nat → T) (obs : Nat → PrefixFlag × T) (W N b : Nat)
    (hW : 0 < W) (hb : 0 < b) (hbltW : b < W) (hbN : b < N)
    (hU : N + W ≤ UINT_MOD)
    (Hreal : ∀ j, j < b → obs (W + j) = (PREFIX_PARTIAL, r j) ∨
      obs (W + j) = (PREFIX_COMPLETE, foldSeg op r 0 j))
    (Hpad : ∀ s, s < W → (obs s).1 = PREFIX_INVALID)
    (Hcomp : ∃ j, j < b ∧ (obs (W + j)).1 = PREFIX_COMPLETE) :
    (∀ fuel, getPrefixRounds op W obs b fuel =
      some (foldSeg op r 0 (b - 1), 0)) ∧
    (∀ s, s ∈ walkAccesses W b 0 → s < W + N) ∧
    (∀ i, b ≤ i → i < W → laneSlot W b i 0 < W) := by
  have hbW : b + W < UINT_MOD := by omega
  obtain ⟨jc, hjcb, hjcC, hjcMax⟩ := exists_greatest_complete obs W b hb Hcomp
  have hobsC : obs (W + jc) = (PREFIX_COMPLETE, foldSeg op r 0 jc) := by
    rcases Hreal jc hjcb with h | h
    · rw [h] at hjcC; simp at hjcC
    · exact h
  have hobsU : ∀ id, jc < id → id < b →
      obs (W + id) = (PREFIX_PARTIAL, r id) := by
    intro id h1 h2
    rcases Hreal id h2 with h | h
    · exact h
    · exfalso
      apply hjcMax id h1 h2
      rw [h]
  have hterm := round_term op r obs W b jc hW hbW hjcb hobsU hobsC
  have hz : (b - 1 - jc) / W = 0 := Nat.div_eq_of_lt (by omega)
  rw [hz] at hterm
  have hres : roundResult op W obs b 0 = foldSeg op r 0 (b - 1) := by
    rw [roundResult, hterm.1, Option.getD_some]
    congr 1
    simp
  refine ⟨?_, ?_, ?_⟩
  · intro fuel
    rw [getPrefixRounds]
    cases fuel with
    | zero => rw [lookLoop, if_pos hterm.2, hres]
    | succ f => rw [lookLoop, if_pos hterm.2, hres]
  · intro s hs
    have hs' : s ∈ (List.range W).map (fun i => laneSlot W b i 0) := by
      simpa [walkAccesses] using hs
    rcases List.mem_map.mp hs' with ⟨i, hi, rfl⟩
    have hi' := List.mem_range.mp hi
    rw [laneSlot_eq W b i 0 (by omega) hbW]
    omega
  · intro i hbi hiW
    rw [laneSlot_eq W b i 0 (by omega) hbW]
    omega

theorem C3_padding_boundary_witness :
    (∀ s, s < 2 →
      ((fun s => if s = 2 then (PREFIX_COMPLETE, (5 : Nat))
        else (PREFIX_INVALID, 0)) s).1 = PREFIX_INVALID) ∧
    getPrefixRounds Nat.add 2
        (fun s => if s = 2 then (PREFIX_COMPLETE, (5 : Nat))
          else (PREFIX_INVALID, 0)) 1 0 =
      some (foldSeg Nat.add (fun j => j + 5) 0 (1 - 1), 0) ∧
    laneSlot 2 1 1 0 < 2 :=
  ⟨by decide,
   (C3_padding_boundary Nat.add (fun j => j + 5)
      (fun s => if s = 2 then (PREFIX_COMPLETE, (5 : Nat))
        else (PREFIX_INVALID, 0)) 2 2 1
      (by decide) (by decide) (by decide) (by decide) (by decide)
      (by decide) (by decide) ⟨0, by decide, by decide⟩).1 0,
   (C3_padding_boundary Nat.add (fun j => j + 5)
      (fun s => if s = 2 then (PREFIX_COMPLETE, (5 : Nat))
        else (PREFIX_INVALID, 0)) 2 2 1
      (by decide) (by decide) (by decide) (by decide) (by decide)
      (by decide) (by decide) ⟨0, by decide, by decide⟩).2.2 1
      (by decide) (by decide)⟩

theorem C1_lookback_exclusive_witness :
    (∀ j, j < 3 →
      (fun s => if s = 2 then (PREFIX_COMPLETE, (1 : Nat))
        else if s = 3 then (PREFIX_PARTIAL, 2)
        else if s = 4 then (PREFIX_PARTIAL, 3)
        else (PREFIX_INVALID, 0)) (2 + j) =
          (PREFIX_PARTIAL, (fun j => j + 1) j) ∨
      (fun s => if s = 2 then (PREFIX_COMPLETE, (1 : Nat))
        else if s = 3 then (PREFIX_PARTIAL, 2)
        else if s = 4 then (PREFIX_PARTIAL, 3)
        else (PREFIX_INVALID, 0)) (2 + j) =
          (PREFIX_COMPLETE, foldSeg Nat.add (fun j => j + 1) 0 j)) ∧
    lookbackOp Nat.add 2
        (fun s => if s = 2 then (PREFIX_COMPLETE, (1 : Nat))
          else if s = 3 then (PREFIX_PARTIAL, 2)
          else if s = 4 then (PREFIX_PARTIAL, 3)
          else (PREFIX_INVALID, 0)) 3 ((fun j => j + 1) 3)
        (⟨fun _ => (PREFIX_EMPTY, 0)⟩) 3 =
      some (foldSeg Nat.add (fun j => j + 1) 0 (3 - 1),
        setCompleteComb 2
          (setPartialComb 2 (⟨fun _ => (PREFIX_EMPTY, 0)⟩) 3 ((fun j => j + 1) 3))
          3 (Nat.add (foldSeg Nat.add (fun j => j + 1) 0 (3 - 1))
              ((fun j => j + 1) 3))) :=
  ⟨by decide,
   (C1_lookback_exclusive Nat.add (fun j => j + 1)
      (fun s => if s = 2 then (PREFIX_COMPLETE, (1 : Nat))
        else if s = 3 then (PREFIX_PARTIAL, 2)
        else if s = 4 then (PREFIX_PARTIAL, 3)
        else (PREFIX_INVALID, 0)) 2 4 3
      (⟨fun _ => (PREFIX_EMPTY, 0)⟩)
      (by decide) (by decide) (by decide) (by decide)
      (fun x y z => Nat.add_assoc x y z)
      (by decide) ⟨0, by decide, by decide⟩).1⟩
